import Mathlib

/-!
Verification development for the RVCinemaView media server.

Each Go function relevant to the verified properties is shallowly embedded
as an executable Lean definition: machine integers (`int`, `int64`) become
`Int` (no overflow is reachable at the byte/duration magnitudes involved),
byte slices become `List Nat`, Go maps plus ordering lists become
association lists, fallible calls return `Option`/`Except`, and the
concurrent service is given an explicit interleaving (small-step) semantics.
-/

namespace RVCinemaView

/-! ## LRU cache (server/internal/cache/lru.go) -/

/-- Go struct `cacheEntry` (lru.go): a key together with its byte payload.
Bytes are modelled as `List Nat`; only membership and length matter. -/
structure CacheEntry where
  key : String
  data : List Nat
deriving DecidableEq, Repr

/-- Go struct `LRUCache` (lru.go). The single list `order` (front = most
recently used, back = least recently used) plays the role of both the Go
map `items` and the linked list `order`; `size` is the running byte total
that the Go code maintains incrementally. -/
structure LRUCache where
  capacity : Nat
  maxSize : Int
  size : Int
  order : List CacheEntry
deriving DecidableEq, Repr

/-- Go `NewLRUCache` (lru.go 24-31). -/
def NewLRUCache (capacity : Nat) (maxSizeBytes : Int) : LRUCache :=
  ⟨capacity, maxSizeBytes, 0, []⟩

/-- Byte length of a payload, as the Go `int64(len(data))`. -/
def dataSizeOf (d : List Nat) : Int := (d.length : Int)

/-- Go `Get` (lru.go 34-43): on a hit the entry is moved to the front
(`MoveToFront`), and its data is returned. -/
def lruGet (c : LRUCache) (k : String) : Option (List Nat) × LRUCache :=
  match c.order.find? (fun e => e.key == k) with
  | some e =>
      (some e.data, { c with order := e :: c.order.eraseP (fun x => x.key == k) })
  | none => (none, c)

/-- The eviction loop of Go `Set` (lru.go 67-70), with explicit fuel.
`none` models non-termination of the Go loop: each iteration calls
`evictOldest` (lru.go 113-118), which removes the back element when one
exists and silently does nothing on an empty list, so when the loop
condition stays true on an empty list the Go loop spins forever. -/
def evictLoop (capacity : Nat) (maxSize dataSize : Int) :
    Nat → List CacheEntry → Int → Option (List CacheEntry × Int)
  | 0, _, _ => none
  | fuel + 1, order, size =>
      if capacity ≤ order.length ∨ (maxSize < size + dataSize ∧ 0 < order.length) then
        match order.getLast? with
        | some e => evictLoop capacity maxSize dataSize fuel order.dropLast (size - dataSizeOf e.data)
        | none => evictLoop capacity maxSize dataSize fuel order size
      else
        some (order, size)

/-- Go `Set` (lru.go 46-77). An item larger than `maxSize` is rejected
outright; an existing key is updated in place (byte total adjusted, entry
moved to the front, no eviction); otherwise the eviction loop runs and the
new entry is pushed to the front. The result is `none` exactly when the
Go eviction loop diverges (see the termination theorem below). -/
def lruSet (c : LRUCache) (k : String) (data : List Nat) : Option LRUCache :=
  let dataSize := dataSizeOf data
  if c.maxSize < dataSize then
    some c
  else
    match c.order.find? (fun e => e.key == k) with
    | some e =>
        some { c with
          size := c.size - dataSizeOf e.data + dataSize,
          order := ⟨k, data⟩ :: c.order.eraseP (fun x => x.key == k) }
    | none =>
        match evictLoop c.capacity c.maxSize dataSize (c.order.length + 1) c.order c.size with
        | some (order1, size1) =>
            some { c with order := ⟨k, data⟩ :: order1, size := size1 + dataSize }
        | none => none

/-- Go `Delete` (lru.go 80-87): remove the entry if present, adjusting the
running byte total (`removeElement`, lru.go 120-125). -/
def lruDelete (c : LRUCache) (k : String) : LRUCache :=
  match c.order.find? (fun e => e.key == k) with
  | some e =>
      { c with
        order := c.order.eraseP (fun x => x.key == k),
        size := c.size - dataSizeOf e.data }
  | none => c

/-- Go `Clear` (lru.go 90-97). -/
def lruClear (c : LRUCache) : LRUCache :=
  { c with order := [], size := 0 }

/-- Go `Len` (lru.go 100-104). -/
def lruLen (c : LRUCache) : Nat := c.order.length

/-- Go `Size` (lru.go 107-111). -/
def lruSize (c : LRUCache) : Int := c.size

/-- One client-visible cache operation. -/
inductive CacheOp where
  | get (k : String)
  | set (k : String) (data : List Nat)
  | del (k : String)
  | clear
deriving DecidableEq, Repr

/-- Apply one operation; `none` means the operation never returns
(divergence of the `Set` eviction loop). -/
def applyOp (c : LRUCache) : CacheOp → Option LRUCache
  | .get k => some (lruGet c k).2
  | .set k d => lruSet c k d
  | .del k => some (lruDelete c k)
  | .clear => some (lruClear c)

/-- Run a sequence of cache operations from a given state. -/
def runOps (c : LRUCache) : List CacheOp → Option LRUCache
  | [] => some c
  | op :: ops =>
      match applyOp c op with
      | some c1 => runOps c1 ops
      | none => none

/-! ## Thumbnail seek offset (server/internal/media/thumbnail.go 54-64) -/

/-- Go `Generate`, seek-offset computation (thumbnail.go 54-64): start at
5 seconds; if the duration is positive and 10% of it (Go `int64` division
truncates toward zero, `Int.tdiv`) is positive and below 5, use that; if
the chosen offset still exceeds the duration, use half the duration. -/
def thumbnailTimestamp (duration : Int) : Int :=
  let start : Int := 5
  if 0 < duration then
    let tenPercent := Int.tdiv duration 10
    let t := if 0 < tenPercent ∧ tenPercent < start then tenPercent else start
    if duration < t then Int.tdiv duration 2 else t
  else start

/-! ## LRU cache lemmas -/

/-- Total byte size of the entries of a recency list. -/
def sumSize (l : List CacheEntry) : Int := (l.map fun e => dataSizeOf e.data).sum

theorem sumSize_nil : sumSize [] = 0 := rfl

theorem sumSize_cons (e : CacheEntry) (l : List CacheEntry) :
    sumSize (e :: l) = dataSizeOf e.data + sumSize l := by
  simp [sumSize]

theorem length_eraseP_of_find {p : CacheEntry → Bool} :
    ∀ (l : List CacheEntry) (e : CacheEntry), l.find? p = some e →
      (l.eraseP p).length + 1 = l.length := by
  intro l
  induction l with
  | nil => intro e h; simp at h
  | cons a t ih =>
      intro e h
      cases hp : p a with
      | true =>
          rw [List.eraseP_cons_of_pos hp]
          simp
      | false =>
          rw [List.find?_cons_of_neg _ (by simp [hp])] at h
          rw [List.eraseP_cons_of_neg (by simp [hp])]
          simpa using ih e h

theorem sumSize_eraseP_of_find {p : CacheEntry → Bool} :
    ∀ (l : List CacheEntry) (e : CacheEntry), l.find? p = some e →
      sumSize (l.eraseP p) = sumSize l - dataSizeOf e.data := by
  intro l
  induction l with
  | nil => intro e h; simp at h
  | cons a t ih =>
      intro e h
      cases hp : p a with
      | true =>
          rw [List.find?_cons_of_pos _ hp] at h
          cases h
          rw [List.eraseP_cons_of_pos hp, sumSize_cons]
          ring
      | false =>
          rw [List.find?_cons_of_neg _ (by simp [hp])] at h
          rw [List.eraseP_cons_of_neg (by simp [hp]), sumSize_cons, sumSize_cons, ih e h]
          ring

theorem sumSize_dropLast :
    ∀ (l : List CacheEntry) (e : CacheEntry), l.getLast? = some e →
      sumSize l.dropLast = sumSize l - dataSizeOf e.data := by
  intro l
  induction l with
  | nil => intro e h; simp at h
  | cons a t ih =>
      intro e h
      cases t with
      | nil =>
          simp at h
          subst h
          simp [sumSize_cons, sumSize_nil]
      | cons b u =>
          rw [List.getLast?_cons_cons] at h
          have := ih e h
          simp only [List.dropLast_cons₂, sumSize_cons, this]
          ring

/-- On successful exit of the eviction loop, the loop condition is false:
the entry count is strictly below capacity, and either the post-insert
byte total fits the budget or the list is empty. -/
theorem evictLoop_exit (cap : Nat) (maxB d : Int) :
    ∀ (fuel : Nat) (order : List CacheEntry) (size : Int) (o : List CacheEntry) (s : Int),
      evictLoop cap maxB d fuel order size = some (o, s) →
      o.length < cap ∧ (s + d ≤ maxB ∨ o.length = 0) := by
  intro fuel
  induction fuel with
  | zero => intro order size o s h; simp [evictLoop] at h
  | succ n ih =>
      intro order size o s h
      rw [evictLoop] at h
      by_cases hc : cap ≤ order.length ∨ (maxB < size + d ∧ 0 < order.length)
      · rw [if_pos hc] at h
        cases hl : order.getLast? with
        | some e => rw [hl] at h; exact ih _ _ _ _ h
        | none => rw [hl] at h; exact ih _ _ _ _ h
      · rw [if_neg hc] at h
        cases h
        push_neg at hc
        exact ⟨hc.1, by omega⟩

/-- The eviction loop keeps the running byte total coherent with the list. -/
theorem evictLoop_coherent (cap : Nat) (maxB d : Int) :
    ∀ (fuel : Nat) (order : List CacheEntry) (size : Int) (o : List CacheEntry) (s : Int),
      evictLoop cap maxB d fuel order size = some (o, s) →
      size = sumSize order → s = sumSize o := by
  intro fuel
  induction fuel with
  | zero => intro order size o s h; simp [evictLoop] at h
  | succ n ih =>
      intro order size o s h hco
      rw [evictLoop] at h
      by_cases hc : cap ≤ order.length ∨ (maxB < size + d ∧ 0 < order.length)
      · rw [if_pos hc] at h
        cases hl : order.getLast? with
        | some e =>
            rw [hl] at h
            exact ih _ _ _ _ h (by rw [sumSize_dropLast order e hl, hco])
        | none => rw [hl] at h; exact ih _ _ _ _ h hco
      · rw [if_neg hc] at h
        cases h
        exact hco

/-- The eviction loop only ever removes back elements: its result is an
initial segment (a `take`) of its input list. -/
theorem evictLoop_take (cap : Nat) (maxB d : Int) :
    ∀ (fuel : Nat) (order : List CacheEntry) (size : Int) (o : List CacheEntry) (s : Int),
      evictLoop cap maxB d fuel order size = some (o, s) →
      ∃ t, o = order.take t := by
  intro fuel
  induction fuel with
  | zero => intro order size o s h; simp [evictLoop] at h
  | succ n ih =>
      intro order size o s h
      rw [evictLoop] at h
      by_cases hc : cap ≤ order.length ∨ (maxB < size + d ∧ 0 < order.length)
      · rw [if_pos hc] at h
        cases hl : order.getLast? with
        | some e =>
            rw [hl] at h
            obtain ⟨t, ht⟩ := ih _ _ _ _ h
            refine ⟨min t (order.length - 1), ?_⟩
            rw [ht, List.dropLast_eq_take, List.take_take]
        | none =>
            rw [hl] at h
            obtain ⟨t, ht⟩ := ih _ _ _ _ h
            exact ⟨t, ht⟩
      · rw [if_neg hc] at h
        cases h
        exact ⟨order.length, (List.take_length order).symm⟩

/-- With capacity at least one the eviction loop terminates within
`order.length` iterations: every iteration with a true condition removes
one element, and on the empty list the condition is false. -/
theorem evictLoop_isSome (cap : Nat) (maxB d : Int) (hcap : 1 ≤ cap) :
    ∀ (fuel : Nat) (order : List CacheEntry) (size : Int), order.length < fuel →
      (evictLoop cap maxB d fuel order size).isSome = true := by
  intro fuel
  induction fuel with
  | zero => intro order size h; omega
  | succ n ih =>
      intro order size hlen
      rw [evictLoop]
      by_cases hc : cap ≤ order.length ∨ (maxB < size + d ∧ 0 < order.length)
      · rw [if_pos hc]
        have hne : order ≠ [] := by
          intro hnil
          subst hnil
          simp at hc
          omega
        cases hl : order.getLast? with
        | some e =>
            apply ih
            have : order.length ≠ 0 := by
              intro h0
              exact hne (List.length_eq_zero.mp h0)
            rw [List.length_dropLast]
            omega
        | none =>
            exact absurd (List.getLast?_eq_none_iff.mp hl) hne
      · rw [if_neg hc]
        rfl

/-- With capacity zero the eviction loop never terminates on an empty
list: the condition `order.Len() >= capacity` is always true and
`evictOldest` is a no-op. -/
theorem evictLoop_capZero_none (maxB d : Int) :
    ∀ (fuel : Nat) (size : Int), evictLoop 0 maxB d fuel [] size = none := by
  intro fuel
  induction fuel with
  | zero => intro size; rfl
  | succ n ih =>
      intro size
      rw [evictLoop]
      rw [if_pos (Or.inl (Nat.zero_le _))]
      exact ih size

/-- Structural coherence of a cache state: the running byte total agrees
with the recency list, and the entry count is within capacity. -/
def Coherent (c : LRUCache) : Prop :=
  c.size = sumSize c.order ∧ c.order.length ≤ c.capacity

instance (c : LRUCache) : Decidable (Coherent c) := by
  unfold Coherent
  infer_instance

theorem coherent_lruGet {c : LRUCache} (k : String) (h : Coherent c) :
    Coherent (lruGet c k).2 := by
  unfold lruGet
  cases hf : c.order.find? (fun e => e.key == k) with
  | none => exact h
  | some e =>
      obtain ⟨hsz, hlen⟩ := h
      constructor
      · simp only [sumSize_cons, sumSize_eraseP_of_find c.order e hf]
        omega
      · have := length_eraseP_of_find c.order e hf
        simp only [List.length_cons]
        omega

theorem coherent_lruSet {c c1 : LRUCache} {k : String} {d : List Nat}
    (h : Coherent c) (hset : lruSet c k d = some c1) : Coherent c1 := by
  obtain ⟨hsz, hlen⟩ := h
  unfold lruSet at hset
  by_cases hrej : c.maxSize < dataSizeOf d
  · rw [if_pos hrej] at hset
    cases hset
    exact ⟨hsz, hlen⟩
  · rw [if_neg hrej] at hset
    cases hf : c.order.find? (fun e => e.key == k) with
    | some e =>
        rw [hf] at hset
        cases hset
        constructor
        · simp only [sumSize_cons, sumSize_eraseP_of_find c.order e hf]
          omega
        · have := length_eraseP_of_find c.order e hf
          simp only [List.length_cons]
          omega
    | none =>
        rw [hf] at hset
        cases hev : evictLoop c.capacity c.maxSize (dataSizeOf d)
            (c.order.length + 1) c.order c.size with
        | none => rw [hev] at hset; cases hset
        | some p =>
            obtain ⟨o, s⟩ := p
            rw [hev] at hset
            cases hset
            have hexit := evictLoop_exit c.capacity c.maxSize (dataSizeOf d) _ _ _ _ _ hev
            have hco := evictLoop_coherent c.capacity c.maxSize (dataSizeOf d) _ _ _ _ _ hev hsz
            constructor
            · simp only [sumSize_cons, hco]
              omega
            · simp only [List.length_cons]
              omega

theorem coherent_lruDelete {c : LRUCache} (k : String) (h : Coherent c) :
    Coherent (lruDelete c k) := by
  obtain ⟨hsz, hlen⟩ := h
  unfold lruDelete
  cases hf : c.order.find? (fun e => e.key == k) with
  | none => exact ⟨hsz, hlen⟩
  | some e =>
      dsimp only
      constructor
      · show c.size - dataSizeOf e.data = sumSize (c.order.eraseP fun x => x.key == k)
        rw [sumSize_eraseP_of_find c.order e hf]
        omega
      · show (c.order.eraseP fun x => x.key == k).length ≤ c.capacity
        have := length_eraseP_of_find c.order e hf
        omega

theorem coherent_runOps :
    ∀ (ops : List CacheOp) (c c1 : LRUCache),
      Coherent c → runOps c ops = some c1 → Coherent c1 := by
  intro ops
  induction ops with
  | nil => intro c c1 h hrun; cases hrun; exact h
  | cons op rest ih =>
      intro c c1 h hrun
      rw [runOps] at hrun
      cases hop : applyOp c op with
      | none => rw [hop] at hrun; cases hrun
      | some c2 =>
          rw [hop] at hrun
          refine ih c2 c1 ?_ hrun
          cases op with
          | get k =>
              cases hop
              exact coherent_lruGet k h
          | set k d =>
              exact coherent_lruSet h hop
          | del k =>
              cases hop
              exact coherent_lruDelete k h
          | clear =>
              cases hop
              exact ⟨rfl, Nat.zero_le _⟩

theorem lruSet_fields {c c1 : LRUCache} {k : String} {d : List Nat}
    (hset : lruSet c k d = some c1) :
    c1.capacity = c.capacity ∧ c1.maxSize = c.maxSize := by
  unfold lruSet at hset
  by_cases hrej : c.maxSize < dataSizeOf d
  · rw [if_pos hrej] at hset; cases hset; exact ⟨rfl, rfl⟩
  · rw [if_neg hrej] at hset
    cases hf : c.order.find? (fun e => e.key == k) with
    | some e => rw [hf] at hset; cases hset; exact ⟨rfl, rfl⟩
    | none =>
        rw [hf] at hset
        cases hev : evictLoop c.capacity c.maxSize (dataSizeOf d)
            (c.order.length + 1) c.order c.size with
        | none => rw [hev] at hset; cases hset
        | some p =>
            obtain ⟨o, s⟩ := p
            rw [hev] at hset
            cases hset
            exact ⟨rfl, rfl⟩

theorem runOps_capacity :
    ∀ (ops : List CacheOp) (c c1 : LRUCache),
      runOps c ops = some c1 → c1.capacity = c.capacity := by
  intro ops
  induction ops with
  | nil => intro c c1 hrun; cases hrun; rfl
  | cons op rest ih =>
      intro c c1 hrun
      rw [runOps] at hrun
      cases hop : applyOp c op with
      | none => rw [hop] at hrun; cases hrun
      | some c2 =>
          rw [hop] at hrun
          have h2 := ih c2 c1 hrun
          cases op with
          | get k =>
              cases hop
              rw [h2]
              unfold lruGet
              cases c.order.find? (fun e => e.key == k) <;> rfl
          | set k d => rw [h2, (lruSet_fields hop).1]
          | del k =>
              cases hop
              rw [h2]
              unfold lruDelete
              cases c.order.find? (fun e => e.key == k) <;> rfl
          | clear => cases hop; rw [h2]; rfl

/-- Setting a key that is not present keeps the byte total within the
budget (when it was within before): the eviction loop runs until the
post-insert total fits, and a singleton insertion into an emptied cache
fits because the single-item rejection check already passed. -/
theorem lruSet_fresh_size {c c1 : LRUCache} {k : String} {d : List Nat}
    (h : Coherent c) (hsz : lruSize c ≤ c.maxSize)
    (hfresh : ∀ e ∈ c.order, e.key ≠ k)
    (hset : lruSet c k d = some c1) : lruSize c1 ≤ c.maxSize := by
  unfold lruSet at hset
  by_cases hrej : c.maxSize < dataSizeOf d
  · rw [if_pos hrej] at hset
    cases hset
    exact hsz
  · rw [if_neg hrej] at hset
    cases hf : c.order.find? (fun e => e.key == k) with
    | some e =>
        have hmem := List.mem_of_find?_eq_some hf
        have hkey := List.find?_some hf
        exact absurd (by simpa using hkey) (hfresh e hmem)
    | none =>
        rw [hf] at hset
        cases hev : evictLoop c.capacity c.maxSize (dataSizeOf d)
            (c.order.length + 1) c.order c.size with
        | none => rw [hev] at hset; cases hset
        | some p =>
            obtain ⟨o, s⟩ := p
            rw [hev] at hset
            cases hset
            have hexit := evictLoop_exit c.capacity c.maxSize (dataSizeOf d) _ _ _ _ _ hev
            rcases hexit.2 with hfit | hempty
            · simpa [lruSize] using hfit
            · have hco := evictLoop_coherent c.capacity c.maxSize (dataSizeOf d) _ _ _ _ _ hev h.1
              have ho : o = [] := List.length_eq_zero.mp hempty
              subst ho
              simp only [lruSize]
              rw [hco, sumSize_nil]
              omega

/-- CLAIM C1 (corrected). The `Size() <= maxSize` invariant as stated
fails on the update branch of `Set` (see the counterexample); what holds
is: (1) `Len() <= capacity` after any operation sequence from a fresh
cache; (2) a `Set` of a key not currently present preserves
`Size() <= maxSize`; (3) `Delete` preserves it; (4) `Clear` restores it
for a nonnegative budget; (5) an item whose byte length alone exceeds
`maxSize` is rejected outright, leaving the cache unchanged. -/
theorem lru_bounds_amended :
    (∀ (cap : Nat) (maxB : Int) (ops : List CacheOp) (c1 : LRUCache),
        runOps (NewLRUCache cap maxB) ops = some c1 → lruLen c1 ≤ cap)
    ∧ (∀ (c : LRUCache) (k : String) (d : List Nat) (c1 : LRUCache),
        Coherent c → lruSize c ≤ c.maxSize → (∀ e ∈ c.order, e.key ≠ k) →
        lruSet c k d = some c1 → lruSize c1 ≤ c.maxSize)
    ∧ (∀ (c : LRUCache) (k : String),
        lruSize c ≤ c.maxSize → lruSize (lruDelete c k) ≤ c.maxSize)
    ∧ (∀ (c : LRUCache), 0 ≤ c.maxSize → lruSize (lruClear c) ≤ c.maxSize)
    ∧ (∀ (c : LRUCache) (k : String) (d : List Nat),
        c.maxSize < dataSizeOf d → lruSet c k d = some c) := by
  refine ⟨?_, ?_, ?_, ?_, ?_⟩
  · intro cap maxB ops c1 hrun
    have hco := coherent_runOps ops (NewLRUCache cap maxB) c1 ⟨rfl, Nat.zero_le _⟩ hrun
    have hcap := runOps_capacity ops (NewLRUCache cap maxB) c1 hrun
    have := hco.2
    rw [hcap] at this
    exact this
  · intro c k d c1 hco hsz hfresh hset
    exact lruSet_fresh_size hco hsz hfresh hset
  · intro c k hsz
    unfold lruDelete
    cases hf : c.order.find? (fun e => e.key == k) with
    | none => exact hsz
    | some e =>
        simp only [lruSize] at hsz ⊢
        have : (0 : Int) ≤ dataSizeOf e.data := Int.ofNat_nonneg _
        omega
  · intro c h
    simpa [lruSize, lruClear] using h
  · intro c k d h
    unfold lruSet
    rw [if_pos h]

/-- CLAIM C1, counterexample to the stated invariant: on a cache with
capacity 2 and byte budget 10, setting key a to 6 bytes, key b to 4
bytes, then key a again to 8 bytes takes the update branch of `Set`
(which evicts nothing), and the call returns with `Size()` = 12 > 10. -/
theorem lru_update_exceeds_budget_cex :
    (runOps (NewLRUCache 2 10)
        [CacheOp.set "a" (List.replicate 6 0), CacheOp.set "b" (List.replicate 4 0),
         CacheOp.set "a" (List.replicate 8 0)]).map lruSize = some 12
    ∧ (10 : Int) < 12 := by
  constructor
  · decide
  · decide

/-- Witness for the amended C1 theorem: a concrete fresh-key `Set` on a
coherent cache keeps `Size()` within the budget. -/
theorem lru_bounds_amended_witness :
    Coherent (NewLRUCache 2 10)
    ∧ lruSize (⟨2, 10, 2, [⟨"a", [0, 0]⟩]⟩ : LRUCache) ≤ (NewLRUCache 2 10).maxSize :=
  ⟨by decide,
    lru_bounds_amended.2.1 (NewLRUCache 2 10) "a" [0, 0]
      (⟨2, 10, 2, [⟨"a", [0, 0]⟩]⟩ : LRUCache)
      (by decide) (by decide) (by decide) (by decide)⟩

/-- CLAIM C10 (confirmed). With capacity at least 1 every `Set` call
terminates; with capacity 0 the eviction loop condition
`order.Len() >= capacity` holds even on an empty list, `evictOldest` is a
no-op there, and the loop (hence `Set` of any new key) never returns. -/
theorem lruSet_termination :
    (∀ (c : LRUCache) (k : String) (d : List Nat),
        1 ≤ c.capacity → (lruSet c k d).isSome = true)
    ∧ (∀ (fuel : Nat) (maxB d size : Int), evictLoop 0 maxB d fuel [] size = none)
    ∧ lruSet (NewLRUCache 0 10) "a" [] = none := by
  refine ⟨?_, ?_, ?_⟩
  · intro c k d hcap
    unfold lruSet
    by_cases hrej : c.maxSize < dataSizeOf d
    · rw [if_pos hrej]; rfl
    · rw [if_neg hrej]
      cases hf : c.order.find? (fun e => e.key == k) with
      | some e => rfl
      | none =>
          have := evictLoop_isSome c.capacity c.maxSize (dataSizeOf d) hcap
            (c.order.length + 1) c.order c.size (Nat.lt_succ_self _)
          cases hev : evictLoop c.capacity c.maxSize (dataSizeOf d)
              (c.order.length + 1) c.order c.size with
          | none => rw [hev] at this; cases this
          | some p => obtain ⟨o, s⟩ := p; rfl
  · intro fuel maxB d size
    exact evictLoop_capZero_none maxB d fuel size
  · decide

/-- Witness for the C10 theorem: `Set` on a concrete capacity-1 cache
returns. -/
theorem lruSet_termination_witness :
    (lruSet (NewLRUCache 1 10) "k" [0]).isSome = true :=
  lruSet_termination.1 (NewLRUCache 1 10) "k" [0] (by decide)

/-! ## Strict recency of eviction (claim C8) -/

/-- Keys currently present, front (most recently used) first. -/
def keysOf (c : LRUCache) : List String := c.order.map CacheEntry.key

/-- Run a sequence of `Set` calls. -/
def runSets (c : LRUCache) : List (String × List Nat) → Option LRUCache
  | [] => some c
  | kv :: rest =>
      match lruSet c kv.1 kv.2 with
      | some c1 => runSets c1 rest
      | none => none

theorem eraseP_append_of_not_right {p : CacheEntry → Bool} :
    ∀ (l1 l2 : List CacheEntry), (∀ b ∈ l2, p b = false) →
      (l1 ++ l2).eraseP p = l1.eraseP p ++ l2 := by
  intro l1
  induction l1 with
  | nil =>
      intro l2 h
      simp only [List.nil_append, List.eraseP_nil]
      exact List.eraseP_of_forall_not (fun a ha => by simp [h a ha])
  | cons a t ih =>
      intro l2 h
      cases hp : p a with
      | true =>
          rw [List.cons_append, List.eraseP_cons_of_pos hp, List.eraseP_cons_of_pos hp]
      | false =>
          rw [List.cons_append, List.eraseP_cons_of_neg (by simp [hp]),
            List.eraseP_cons_of_neg (by simp [hp]), ih l2 h, List.cons_append]

/-- Invariant for the recency argument: relative to the snapshot key set
`orig` and the recency list `base` taken right after the `Get`, the cache
is some all-fresh front segment followed by an initial segment of `base`
(eviction only ever removes back elements, insertion only pushes fresh
keys to the front). -/
def FrontFresh (orig : List String) (base : List CacheEntry) (c : LRUCache) : Prop :=
  ∃ F m, c.order = F ++ base.take m ∧ ∀ e ∈ F, e.key ∉ orig

theorem frontFresh_lruSet {orig : List String} {base : List CacheEntry}
    {c c1 : LRUCache} {k : String} {d : List Nat}
    (hbase : ∀ e ∈ base, e.key ∈ orig) (hk : k ∉ orig)
    (hinv : FrontFresh orig base c) (hset : lruSet c k d = some c1) :
    FrontFresh orig base c1 := by
  obtain ⟨F, m, horder, hF⟩ := hinv
  have htakeF : ∀ b ∈ base.take m, (b.key == k) = false := by
    intro b hb
    have : b.key ∈ orig := hbase b (List.take_subset m base hb)
    have hne : b.key ≠ k := fun hbk => hk (hbk ▸ this)
    simpa using hne
  unfold lruSet at hset
  by_cases hrej : c.maxSize < dataSizeOf d
  · rw [if_pos hrej] at hset
    cases hset
    exact ⟨F, m, horder, hF⟩
  · rw [if_neg hrej] at hset
    cases hf : c.order.find? (fun e => e.key == k) with
    | some e =>
        rw [hf] at hset
        cases hset
        refine ⟨⟨k, d⟩ :: F.eraseP (fun x => x.key == k), m, ?_, ?_⟩
        · show (⟨k, d⟩ : CacheEntry) :: c.order.eraseP (fun x => x.key == k) = _
          rw [horder, eraseP_append_of_not_right F (base.take m) htakeF, List.cons_append]
        · intro e' he'
          rcases List.mem_cons.mp he' with h1 | h1
          · subst h1; simpa using hk
          · exact hF e' ((List.eraseP_sublist F).subset h1)
    | none =>
        rw [hf] at hset
        cases hev : evictLoop c.capacity c.maxSize (dataSizeOf d)
            (c.order.length + 1) c.order c.size with
        | none => rw [hev] at hset; cases hset
        | some p =>
            obtain ⟨o, s⟩ := p
            rw [hev] at hset
            cases hset
            obtain ⟨t, ht⟩ := evictLoop_take c.capacity c.maxSize (dataSizeOf d) _ _ _ _ _ hev
            refine ⟨⟨k, d⟩ :: F.take t, min (t - F.length) m, ?_, ?_⟩
            · show (⟨k, d⟩ : CacheEntry) :: o = _
              rw [ht, horder, List.take_append_eq_append_take, List.take_take,
                List.cons_append]
            · intro e' he'
              rcases List.mem_cons.mp he' with h1 | h1
              · subst h1; simpa using hk
              · exact hF e' (List.take_subset t F h1)

theorem frontFresh_runSets {orig : List String} {base : List CacheEntry} :
    ∀ (sets : List (String × List Nat)) (c c1 : LRUCache),
      (∀ p ∈ sets, p.1 ∉ orig) → (∀ e ∈ base, e.key ∈ orig) →
      FrontFresh orig base c → runSets c sets = some c1 →
      FrontFresh orig base c1 := by
  intro sets
  induction sets with
  | nil => intro c c1 _ _ hinv hrun; cases hrun; exact hinv
  | cons kv rest ih =>
      intro c c1 hks hbase hinv hrun
      rw [runSets] at hrun
      cases hset : lruSet c kv.1 kv.2 with
      | none => rw [hset] at hrun; cases hrun
      | some c2 =>
          rw [hset] at hrun
          exact ih c2 c1 (fun p hp => hks p (List.mem_cons_of_mem kv hp)) hbase
            (frontFresh_lruSet hbase (hks kv (List.mem_cons_self kv rest)) hinv hset)
            hrun

/-- CLAIM C8 (confirmed). Eviction order is strict recency: after `Get K`
promotes K to the front, any sequence of `Set` calls on keys not present
in the original cache can only evict K after every other pre-existing
entry is gone; hence if any other pre-existing key survives, K survives. -/
theorem lru_eviction_strict_recency
    (c0 : LRUCache) (K : String) (hK : K ∈ keysOf c0)
    (sets : List (String × List Nat))
    (hfresh : ∀ p ∈ sets, p.1 ∉ keysOf c0)
    (cfin : LRUCache)
    (hrun : runSets (lruGet c0 K).2 sets = some cfin) :
    ∀ e ∈ keysOf c0, e ≠ K → e ∈ keysOf cfin → K ∈ keysOf cfin := by
  cases hf : c0.order.find? (fun x => x.key == K) with
  | none =>
      exfalso
      obtain ⟨x, hx, hxk⟩ := List.mem_map.mp hK
      have := List.find?_eq_none.mp hf x hx
      simp [hxk] at this
  | some eK =>
      have heKkey : eK.key = K := by
        have := List.find?_some hf
        simpa using this
      have hbase0 : (lruGet c0 K).2.order
          = eK :: c0.order.eraseP (fun x => x.key == K) := by
        unfold lruGet
        rw [hf]
      set base := eK :: c0.order.eraseP (fun x => x.key == K) with hbasedef
      have hbase : ∀ e ∈ base, e.key ∈ keysOf c0 := by
        intro e he
        rcases List.mem_cons.mp he with h1 | h1
        · rw [h1]
          exact List.mem_map.mpr ⟨eK, List.mem_of_find?_eq_some hf, rfl⟩
        · exact List.mem_map.mpr
            ⟨e, (List.eraseP_sublist c0.order).subset h1, rfl⟩
      have hstart : FrontFresh (keysOf c0) base (lruGet c0 K).2 :=
        ⟨[], base.length, by rw [List.nil_append, List.take_length, hbase0], by simp⟩
      obtain ⟨F, m, horder, hF⟩ :=
        frontFresh_runSets sets (lruGet c0 K).2 cfin hfresh hbase hstart hrun
      intro e he heK hein
      obtain ⟨x, hx, hxk⟩ := List.mem_map.mp hein
      rw [horder] at hx
      rcases List.mem_append.mp hx with hxF | hxM
      · exact absurd (hxk ▸ he) (hF x hxF)
      · cases m with
        | zero => simp at hxM
        | succ m1 =>
            have : eK ∈ cfin.order := by
              rw [horder, hbasedef]
              exact List.mem_append.mpr (Or.inr (by simp))
            exact List.mem_map.mpr ⟨eK, this, heKkey⟩

/-- Witness for the C8 theorem: with capacity 3, after getting K and
inserting one fresh key, the surviving pre-existing key k1 implies K
also survives. -/
theorem lru_eviction_strict_recency_witness :
    "K" ∈ keysOf (⟨3, 10, 2, [⟨"k1", [0]⟩, ⟨"K", [0]⟩]⟩ : LRUCache) ∧
    "K" ∈ keysOf (⟨3, 10, 3, [⟨"n1", [0]⟩, ⟨"K", [0]⟩, ⟨"k1", [0]⟩]⟩ : LRUCache) :=
  ⟨by decide,
    lru_eviction_strict_recency (⟨3, 10, 2, [⟨"k1", [0]⟩, ⟨"K", [0]⟩]⟩ : LRUCache)
      "K" (by decide) [("n1", [0])] (by decide)
      (⟨3, 10, 3, [⟨"n1", [0]⟩, ⟨"K", [0]⟩, ⟨"k1", [0]⟩]⟩ : LRUCache) (by decide)
      "k1" (by decide) (by decide) (by decide)⟩

/-- CLAIM C5 (confirmed). Seek-offset computation of `Generate`
(thumbnail.go 54-64): a 120-second video seeks to 5 (10% = 12 exceeds the
5-second cap), a 30-second video to 3 (10% = 3 is below the cap), and a
4-second video to 2 (10% truncates to 0, so the 5-second start stands,
exceeds the duration, and is replaced by half the duration). -/
theorem generate_seek_offset_examples :
    thumbnailTimestamp 120 = 5 ∧ thumbnailTimestamp 30 = 3 ∧ thumbnailTimestamp 4 = 2 := by
  decide

/-! ## In-flight deduplication of ProcessMediaItem (unnamed service file,
`ProcessMediaItem`, together with `Generate`'s disk check)

Interleaving model of N concurrent `ProcessMediaItem` calls for one media
ID. Each call runs the program: atomically check-and-register in the
in-flight set under the mutex (returning as a no-op when already
registered); check whether the thumbnail file already exists on disk
(`generator.Exists`); if not, invoke the generator (the spec's test
double: the invocation succeeds and the output file appears); finally,
unconditionally unregister in the deferred block. Mutex-protected blocks
are single atomic steps; the steps of different calls interleave
arbitrarily. -/

/-- Program counter of one `ProcessMediaItem` call. -/
inductive PC where
  | start
  | check
  | gen
  | unreg
  | done
deriving DecidableEq, Repr

/-- Shared state: the in-flight flag for this media ID (membership of the
ID in the `processing` map), whether the thumbnail output file exists,
the generator invocation counter of the test double, and each call's
program counter. -/
structure SvcState where
  inflight : Bool
  thumbOnDisk : Bool
  invocations : Nat
  pcs : List PC
deriving DecidableEq, Repr

/-- One interleaved step of one call (the call is the position in
`pcs`). -/
inductive SvcStep : SvcState → SvcState → Prop where
  | busy (l1 l2 : List PC) (disk : Bool) (n : Nat) :
      SvcStep ⟨true, disk, n, l1 ++ PC.start :: l2⟩ ⟨true, disk, n, l1 ++ PC.done :: l2⟩
  | register (l1 l2 : List PC) (disk : Bool) (n : Nat) :
      SvcStep ⟨false, disk, n, l1 ++ PC.start :: l2⟩ ⟨true, disk, n, l1 ++ PC.check :: l2⟩
  | skipGen (l1 l2 : List PC) (b : Bool) (n : Nat) :
      SvcStep ⟨b, true, n, l1 ++ PC.check :: l2⟩ ⟨b, true, n, l1 ++ PC.unreg :: l2⟩
  | toGen (l1 l2 : List PC) (b : Bool) (n : Nat) :
      SvcStep ⟨b, false, n, l1 ++ PC.check :: l2⟩ ⟨b, false, n, l1 ++ PC.gen :: l2⟩
  | generate (l1 l2 : List PC) (b disk : Bool) (n : Nat) :
      SvcStep ⟨b, disk, n, l1 ++ PC.gen :: l2⟩ ⟨b, true, n + 1, l1 ++ PC.unreg :: l2⟩
  | unregister (l1 l2 : List PC) (b disk : Bool) (n : Nat) :
      SvcStep ⟨b, disk, n, l1 ++ PC.unreg :: l2⟩ ⟨false, disk, n, l1 ++ PC.done :: l2⟩

/-- Reachability under arbitrary interleaving. -/
def SvcReach : SvcState → SvcState → Prop := Relation.ReflTransGen SvcStep

/-- Initial state: no call registered, `calls` concurrent calls about to
start, the generator not yet invoked. -/
def initState (calls : Nat) (disk : Bool) : SvcState :=
  ⟨false, disk, 0, List.replicate calls PC.start⟩

/-- A call is inside the registered (in-flight) section. -/
def inRegion (pc : PC) : Bool :=
  match pc with
  | PC.check => true
  | PC.gen => true
  | PC.unreg => true
  | _ => false

/-- Number of calls currently inside the registered section. -/
def regionCount (l : List PC) : Nat := l.countP inRegion

/-- Inductive invariant: at most one invocation ever; an invocation
implies the output file exists; the in-flight flag tracks exactly one
call in the registered section; a call about to invoke the generator has
seen the file absent (and it stays absent until it invokes). -/
def SvcInv (s : SvcState) : Prop :=
  s.invocations ≤ 1
  ∧ (1 ≤ s.invocations → s.thumbOnDisk = true)
  ∧ regionCount s.pcs = (if s.inflight then 1 else 0)
  ∧ (PC.gen ∈ s.pcs → s.thumbOnDisk = false)

theorem regionCount_split (l1 l2 : List PC) (a : PC) :
    regionCount (l1 ++ a :: l2)
      = regionCount l1 + (if inRegion a then 1 else 0) + regionCount l2 := by
  simp [regionCount, List.countP_append, List.countP_cons]
  omega

theorem regionCount_pos_of_gen_mem {l : List PC} (h : PC.gen ∈ l) :
    0 < regionCount l :=
  List.countP_pos_iff.mpr ⟨PC.gen, h, rfl⟩

theorem gen_mem_swap {l1 l2 : List PC} {a b : PC}
    (ha : a ≠ PC.gen) (hb : b ≠ PC.gen) :
    PC.gen ∈ l1 ++ a :: l2 ↔ PC.gen ∈ l1 ++ b :: l2 := by
  constructor
  · intro h
    rcases List.mem_append.mp h with h1 | h1
    · exact List.mem_append.mpr (Or.inl h1)
    · rcases List.mem_cons.mp h1 with h2 | h2
      · exact absurd h2.symm ha
      · exact List.mem_append.mpr (Or.inr (List.mem_cons_of_mem b h2))
  · intro h
    rcases List.mem_append.mp h with h1 | h1
    · exact List.mem_append.mpr (Or.inl h1)
    · rcases List.mem_cons.mp h1 with h2 | h2
      · exact absurd h2.symm hb
      · exact List.mem_append.mpr (Or.inr (List.mem_cons_of_mem a h2))

theorem svcInv_step {s s1 : SvcState} (h : SvcInv s) (hst : SvcStep s s1) :
    SvcInv s1 := by
  obtain ⟨h1, h2, h3, h4⟩ := h
  cases hst with
  | busy l1 l2 disk n =>
      refine ⟨h1, h2, ?_, ?_⟩
      · rw [regionCount_split] at h3 ⊢
        simpa [inRegion] using h3
      · intro hmem
        exact h4 ((gen_mem_swap (by decide) (by decide)).mpr hmem)
  | register l1 l2 disk n =>
      refine ⟨h1, h2, ?_, ?_⟩
      · rw [regionCount_split] at h3 ⊢
        simp only [inRegion] at h3 ⊢
        simp at h3
        omega
      · intro hmem
        exact h4 ((gen_mem_swap (by decide) (by decide)).mpr hmem)
  | skipGen l1 l2 b n =>
      refine ⟨h1, h2, ?_, ?_⟩
      · rw [regionCount_split] at h3 ⊢
        simpa [inRegion] using h3
      · intro hmem
        have := h4 ((gen_mem_swap (by decide) (by decide)).mpr hmem)
        simp at this
  | toGen l1 l2 b n =>
      refine ⟨h1, h2, ?_, fun _ => rfl⟩
      · rw [regionCount_split] at h3 ⊢
        simpa [inRegion] using h3
  | generate l1 l2 b disk n =>
      have hdisk : disk = false := h4 (List.mem_append.mpr (Or.inr (by simp)))
      have hn : n = 0 := by
        by_cases h1n : 1 ≤ n
        · have hT : disk = true := h2 h1n
          rw [hdisk] at hT
          cases hT
        · omega
      have hcount : regionCount l1 = 0 ∧ regionCount l2 = 0 := by
        rw [regionCount_split] at h3
        simp only [inRegion] at h3
        rcases b with _ | _
        all_goals simp at h3
        all_goals omega
      refine ⟨(show n + 1 ≤ 1 by omega), fun _ => rfl, ?_, ?_⟩
      · show regionCount (l1 ++ PC.unreg :: l2) = if b = true then 1 else 0
        rw [regionCount_split]
        rw [regionCount_split] at h3
        simpa [inRegion] using h3
      · intro hmem
        exfalso
        rcases List.mem_append.mp hmem with hm | hm
        · have := regionCount_pos_of_gen_mem hm
          omega
        · rcases List.mem_cons.mp hm with hm2 | hm2
          · cases hm2
          · have := regionCount_pos_of_gen_mem hm2
            omega
  | unregister l1 l2 b disk n =>
      have hcount : regionCount l1 = 0 ∧ regionCount l2 = 0 := by
        rw [regionCount_split] at h3
        simp only [inRegion] at h3
        rcases b with _ | _
        all_goals simp at h3
        all_goals omega
      refine ⟨h1, h2, ?_, ?_⟩
      · rw [regionCount_split]
        simp only [inRegion]
        omega
      · intro hmem
        exfalso
        rcases List.mem_append.mp hmem with hm | hm
        · have := regionCount_pos_of_gen_mem hm
          omega
        · rcases List.mem_cons.mp hm with hm2 | hm2
          · cases hm2
          · have := regionCount_pos_of_gen_mem hm2
            omega

theorem svcInv_reach {s s1 : SvcState} (h : SvcInv s) (hr : SvcReach s s1) :
    SvcInv s1 := by
  induction hr with
  | refl => exact h
  | tail _ hst ih => exact svcInv_step ih hst

theorem svcInv_init (calls : Nat) (disk : Bool) : SvcInv (initState calls disk) := by
  refine ⟨Nat.zero_le 1, ?_, ?_, ?_⟩
  · intro h
    exact absurd h (by simp [initState])
  · show regionCount (List.replicate calls PC.start) = if false = true then 1 else 0
    rw [if_neg (by simp)]
    exact List.countP_eq_zero.mpr
      (fun a ha => by rw [List.eq_of_mem_replicate ha]; decide)
  · intro hmem
    have hmem2 : PC.gen ∈ List.replicate calls PC.start := hmem
    exact absurd (List.eq_of_mem_replicate hmem2) (by decide)

/-- CLAIM C2 (confirmed). Launching any number of concurrent
`ProcessMediaItem` calls for the same media ID yields at most one
generator invocation, in every interleaving: the check-and-register on
the in-flight set is atomic under the mutex, a call that finds the ID
registered completes as a no-op, and a successful generation leaves the
output on disk so every later call skips generation. -/
theorem processMediaItem_at_most_one_invocation
    (calls : Nat) (disk : Bool) (s : SvcState)
    (h : SvcReach (initState calls disk) s) :
    s.invocations ≤ 1 :=
  (svcInv_reach (svcInv_init calls disk) h).1

/-- Witness for the C2 theorem: a concrete five-step interleaving of two
calls (one registers, the other observes the in-flight ID and returns as
a no-op, the first generates and unregisters) ends with exactly one
invocation. -/
theorem processMediaItem_at_most_one_invocation_witness :
    ({ inflight := false, thumbOnDisk := true, invocations := 1,
       pcs := [PC.done, PC.done] } : SvcState).invocations ≤ 1 := by
  have t1 : SvcStep ⟨false, false, 0, [PC.start, PC.start]⟩
      ⟨true, false, 0, [PC.check, PC.start]⟩ :=
    SvcStep.register [] [PC.start] false 0
  have t2 : SvcStep ⟨true, false, 0, [PC.check, PC.start]⟩
      ⟨true, false, 0, [PC.check, PC.done]⟩ :=
    SvcStep.busy [PC.check] [] false 0
  have t3 : SvcStep ⟨true, false, 0, [PC.check, PC.done]⟩
      ⟨true, false, 0, [PC.gen, PC.done]⟩ :=
    SvcStep.toGen [] [PC.done] true 0
  have t4 : SvcStep ⟨true, false, 0, [PC.gen, PC.done]⟩
      ⟨true, true, 1, [PC.unreg, PC.done]⟩ :=
    SvcStep.generate [] [PC.done] true false 0
  have t5 : SvcStep ⟨true, true, 1, [PC.unreg, PC.done]⟩
      ⟨false, true, 1, [PC.done, PC.done]⟩ :=
    SvcStep.unregister [] [PC.done] true true 1
  exact processMediaItem_at_most_one_invocation 2 false _
    (Relation.ReflTransGen.tail
      (Relation.ReflTransGen.tail
        (Relation.ReflTransGen.tail
          (Relation.ReflTransGen.tail
            (Relation.ReflTransGen.tail Relation.ReflTransGen.refl t1) t2) t3) t4) t5)

/-! ## Error propagation of Generate and ProcessMediaItem (claim C6) -/

/-- Environment of one `Generate` call (thumbnail.go 46-104): whether the
output file already exists before the call, whether the ffmpeg subprocess
exits zero, and whether the output file exists after the subprocess. -/
structure GenEnv where
  alreadyOnDisk : Bool
  execOk : Bool
  outputCreated : Bool
deriving DecidableEq, Repr

/-- Go `Generate` (thumbnail.go 46-104), error-path embedding: return the
output path immediately when it already exists; report the subprocess
error on non-zero exit; report a missing output file even after a zero
exit; otherwise return the output path. -/
def generate (env : GenEnv) (outputPath : String) : Except String String :=
  if env.alreadyOnDisk then Except.ok outputPath
  else if env.execOk = false then Except.error "ffmpeg failed"
  else if env.outputCreated = false then Except.error "thumbnail file not created"
  else Except.ok outputPath

/-- Environment of one sequential `ProcessMediaItem` call (unnamed
service file, lines 113-167): whether the ID is already in the in-flight
set, availability of the metadata extractor and of the generator, and the
generation environment. The `Exists` check of the service and the
already-exists check inside `Generate` observe the same file. -/
structure SvcEnv where
  alreadyProcessing : Bool
  metaAvailable : Bool
  extractOk : Bool
  genAvailable : Bool
  genEnv : GenEnv
deriving DecidableEq, Repr

/-- Observable outcome of one `ProcessMediaItem` call: the Go error
value returned to the caller, whether the generator was invoked, and
whether a generation failure was logged (the `s.logger.Debug()` branch). -/
structure PMIOutcome where
  err : Option String
  generatorInvoked : Bool
  generationFailureLogged : Bool
deriving DecidableEq, Repr

/-- Go `ProcessMediaItem` (unnamed service file, lines 113-167),
sequential control-flow embedding: an ID already in flight returns `nil`
at once; the metadata block (lines 129-152) never produces a returned
error (store failures are logged); the generation block (lines 155-164)
runs when the generator is available and no thumbnail exists, and a
`Generate` error is logged, after which the function returns `nil`. -/
def processMediaItem (env : SvcEnv) : PMIOutcome :=
  if env.alreadyProcessing then ⟨none, false, false⟩
  else if env.genAvailable && !env.genEnv.alreadyOnDisk then
    match generate env.genEnv "thumb.jpg" with
    | Except.ok _ => ⟨none, true, false⟩
    | Except.error _ => ⟨none, true, true⟩
  else ⟨none, false, false⟩

theorem processMediaItem_err_none (env : SvcEnv) :
    (processMediaItem env).err = none := by
  unfold processMediaItem
  by_cases h1 : env.alreadyProcessing
  · rw [if_pos h1]
  · rw [if_neg h1]
    by_cases h2 : env.genAvailable && !env.genEnv.alreadyOnDisk
    · rw [if_pos h2]
      cases generate env.genEnv "thumb.jpg" <;> rfl
    · rw [if_neg h2]

/-- CLAIM C6, counterexample: at a concrete input where the generator is
available, no thumbnail exists and the subprocess fails, the generation
failure is logged but `ProcessMediaItem` returns `nil`; indeed no input
whatsoever makes `ProcessMediaItem` return a non-nil error. -/
theorem processMediaItem_error_cex :
    (processMediaItem ⟨false, false, false, true, ⟨false, false, false⟩⟩).err = none
    ∧ (processMediaItem
        ⟨false, false, false, true, ⟨false, false, false⟩⟩).generationFailureLogged = true
    ∧ ¬ ∃ env : SvcEnv, (processMediaItem env).err ≠ none := by
  refine ⟨by decide, by decide, ?_⟩
  rintro ⟨env, h⟩
  exact h (processMediaItem_err_none env)

/-- CLAIM C6 (corrected). When thumbnail generation fails (subprocess
non-zero exit or missing output file), `Generate` surfaces the failure as
an error to its immediate caller; `ProcessMediaItem`, however, logs the
failure and returns `nil` — it never returns a non-nil error. -/
theorem generation_failure_surfaced_amended (env : SvcEnv)
    (hproc : env.alreadyProcessing = false)
    (havail : env.genAvailable = true)
    (hdisk : env.genEnv.alreadyOnDisk = false)
    (hfail : env.genEnv.execOk = false ∨ env.genEnv.outputCreated = false) :
    (∃ msg, generate env.genEnv "thumb.jpg" = Except.error msg)
    ∧ (processMediaItem env).err = none
    ∧ (processMediaItem env).generatorInvoked = true
    ∧ (processMediaItem env).generationFailureLogged = true := by
  have hgen : ∃ msg, generate env.genEnv "thumb.jpg" = Except.error msg := by
    unfold generate
    rw [if_neg (by rw [hdisk]; exact Bool.false_ne_true)]
    rcases hfail with hf | hf
    · rw [if_pos hf]
      exact ⟨"ffmpeg failed", rfl⟩
    · by_cases hexec : env.genEnv.execOk = false
      · rw [if_pos hexec]
        exact ⟨"ffmpeg failed", rfl⟩
      · rw [if_neg hexec, if_pos hf]
        exact ⟨"thumbnail file not created", rfl⟩
  refine ⟨hgen, processMediaItem_err_none env, ?_, ?_⟩
  all_goals
    obtain ⟨msg, hmsg⟩ := hgen
    unfold processMediaItem
    rw [if_neg (by rw [hproc]; exact Bool.false_ne_true),
      if_pos (by rw [havail, hdisk]; rfl), hmsg]

/-- Witness for the amended C6 theorem at a concrete environment. -/
theorem generation_failure_surfaced_amended_witness :
    (∃ msg, generate (⟨false, true, false⟩ : GenEnv) "thumb.jpg" = Except.error msg)
    ∧ (processMediaItem ⟨false, true, true, true, ⟨false, true, false⟩⟩).err = none
    ∧ (processMediaItem
        ⟨false, true, true, true, ⟨false, true, false⟩⟩).generatorInvoked = true
    ∧ (processMediaItem
        ⟨false, true, true, true, ⟨false, true, false⟩⟩).generationFailureLogged = true :=
  generation_failure_surfaced_amended ⟨false, true, true, true, ⟨false, true, false⟩⟩
    (by decide) (by decide) (by decide) (Or.inr (by decide))

/-! ## Record store (server/internal/storage/sqlite.go)

The SQLite tables `folders` and `media_items` are modelled as in-memory
row lists; the `path` columns are UNIQUE, which the upsert statements
rely on. -/

/-- Row of the `folders` table (schema, sqlite.go 42-49). -/
structure Folder where
  id : String
  name : String
  path : String
  parentID : Option String
  itemCount : Int
  createdAt : Int
deriving DecidableEq, Repr

/-- Row of the `media_items` table (schema, sqlite.go 51-67). Optional
columns are `Option`; times are abstract integers. -/
structure MediaItem where
  id : String
  folderID : String
  title : String
  path : String
  size : Int
  duration : Option Int
  width : Option Int
  height : Option Int
  videoCodec : Option String
  audioCodec : Option String
  hasSubtitles : Bool
  modifiedAt : Int
  createdAt : Int
  updatedAt : Int
deriving DecidableEq, Repr

/-- The record store: both tables. -/
structure Store where
  folders : List Folder
  media : List MediaItem
deriving DecidableEq, Repr

/-- Go `CreateFolder` (sqlite.go 137-145): INSERT with
`ON CONFLICT(path) DO UPDATE SET name = excluded.name`. -/
def createFolder (st : Store) (f : Folder) : Store :=
  if st.folders.any (fun g => g.path == f.path) then
    { st with folders :=
        st.folders.map (fun g => if g.path == f.path then { g with name := f.name } else g) }
  else
    { st with folders := st.folders ++ [f] }

/-- Go `CreateMediaItem` (sqlite.go 276-295): INSERT with
`ON CONFLICT(path) DO UPDATE SET title, size, file_modified_at,
updated_at = excluded.*` — on a path conflict only those four columns are
rewritten; `duration`, `width`, `height`, `video_codec`, `audio_codec`
(and the rest of the row) are untouched. -/
def createMediaItem (st : Store) (m : MediaItem) : Store :=
  if st.media.any (fun r => r.path == m.path) then
    { st with media :=
        st.media.map (fun r =>
          if r.path == m.path then
            { r with title := m.title, size := m.size,
                     modifiedAt := m.modifiedAt, updatedAt := m.updatedAt }
          else r) }
  else
    { st with media := st.media ++ [m] }

/-- Go `UpdateFolderItemCount` (sqlite.go 147-150):
`UPDATE folders SET item_count = ? WHERE id = ?`. -/
def updateFolderItemCount (st : Store) (id : String) (count : Int) : Store :=
  { st with folders :=
      st.folders.map (fun g => if g.id == id then { g with itemCount := count } else g) }

/-- Go `DeleteMediaItem` (sqlite.go 443-446). -/
def deleteMediaItem (st : Store) (id : String) : Store :=
  { st with media := st.media.filter (fun r => r.id != id) }

/-- Go `DeleteFolder` (sqlite.go 468-471). -/
def deleteFolder (st : Store) (id : String) : Store :=
  { st with folders := st.folders.filter (fun g => g.id != id) }

/-- Item count of the folder row with the given id, if any. -/
def folderItemCount (st : Store) (id : String) : Option Int :=
  (st.folders.find? (fun g => g.id == id)).map Folder.itemCount

/-! ## Library scanner (unnamed scanner file)

The filesystem is modelled as a tree of named entries; `os.ReadDir`
returns the child list of a directory node. Paths are joined with a
slash separator as `filepath.Join` does for clean components. -/

/-- A filesystem entry: a directory with children, or a regular file
with size and modification time. -/
inductive FSEntry where
  | dir (name : String) (children : List FSEntry)
  | file (name : String) (size : Int) (modTime : Int)
deriving Repr

/-- Name of an entry. -/
def FSEntry.name : FSEntry → String
  | .dir n _ => n
  | .file n _ _ => n

/-- Go `entry.IsDir()`. -/
def FSEntry.isDir : FSEntry → Bool
  | .dir _ _ => true
  | .file _ _ _ => false

/-- Go `filepath.Join` for clean components. -/
def joinPath (d n : String) : String := d ++ "/" ++ n

/-- Extension candidate accumulator: walking the characters, a dot
restarts the candidate; characters extend a started candidate. Mirrors
Go `filepath.Ext`, which returns the suffix starting at the final dot
(empty when the name has no dot). -/
def extAcc : List Char → List Char → List Char
  | acc, [] => acc
  | acc, c :: rest =>
      if c = '.' then extAcc ['.'] rest
      else
        match acc with
        | [] => extAcc [] rest
        | _ => extAcc (acc ++ [c]) rest

/-- Go `filepath.Ext`. -/
def fileExt (name : String) : String := String.mk (extAcc [] name.toList)

/-- Go `IsSupportedVideo` (internal/media/formats.go 19-22): lower-cased
extension membership in the supported table (formats.go 8-17). -/
def isSupportedVideo (filename : String) : Bool :=
  let ext := String.mk ((extAcc [] filename.toList).map Char.toLower)
  ext == ".mp4" || ext == ".m4v" || ext == ".mkv" || ext == ".avi" ||
    ext == ".webm" || ext == ".mov" || ext == ".wmv" || ext == ".flv"

/-- Go `strings.TrimSuffix(entry.Name(), filepath.Ext(entry.Name()))`. -/
def titleOf (name : String) : String :=
  let cs := name.toList
  String.mk (cs.take (cs.length - (extAcc [] cs).length))

/-- Go `strings.HasPrefix(entry.Name(), ".")`: hidden-entry test. -/
def startsWithDot (s : String) : Bool :=
  match s.toList with
  | '.' :: _ => true
  | _ => false

/-- An entry that the scanner counts as a direct media child: a
supported video file. -/
def isVideoFile : FSEntry → Bool
  | .file n _ _ => isSupportedVideo n
  | .dir _ _ => false

/-- Number of direct (non-recursive) media children of an entry list. -/
def directMediaCount (entries : List FSEntry) : Int :=
  ((entries.filter isVideoFile).length : Int)

/-- Go `CleanupDeletedFiles` (unnamed scanner file, lines 252-297): take
a snapshot of all media (id, path) pairs, delete each whose path no
longer stats on disk, then the same for folders. The filesystem is the
list `fs` of paths that exist. Store deletions always succeed in the
model (the Go code logs and continues on a failed delete). -/
def cleanupDeletedFiles (fs : List String) (st : Store) : Store :=
  let mediaSnapshot := st.media.map (fun m => (m.id, m.path))
  let st1 := mediaSnapshot.foldl
    (fun acc p => if fs.contains p.2 then acc else deleteMediaItem acc p.1) st
  let folderSnapshot := st1.folders.map (fun f => (f.id, f.path))
  folderSnapshot.foldl
    (fun acc p => if fs.contains p.2 then acc else deleteFolder acc p.1) st1

/-- Go `scanDirectory` (unnamed scanner file, lines 158-244), entry loop:
hidden subdirectories are skipped; a visible subdirectory is upserted as
a folder with the current folder as parent and recursively scanned
(including its own trailing item-count update); a supported video file is
upserted as a media item and counted. Returns the mutated store and the
`mediaCount` of this level. `gid` is the content-addressed ID derivation
(`generateID`: truncated SHA-256 of the path) and `now` the scan time. -/
def scanEntryList (gid : String → String) (now : Int) :
    List FSEntry → String → String → Store → Store × Int
  | [], _, _, st => (st, 0)
  | FSEntry.dir name children :: rest, dirPath, parentID, st =>
      if startsWithDot name then
        scanEntryList gid now rest dirPath parentID st
      else
        let fullPath := joinPath dirPath name
        let folderID := gid fullPath
        let st1 := createFolder st ⟨folderID, name, fullPath, some parentID, 0, now⟩
        let sub := scanEntryList gid now children fullPath folderID st1
        let st2 := if 0 < sub.2 then updateFolderItemCount sub.1 folderID sub.2 else sub.1
        scanEntryList gid now rest dirPath parentID st2
  | FSEntry.file name size modTime :: rest, dirPath, parentID, st =>
      if isSupportedVideo name then
        let fullPath := joinPath dirPath name
        let mediaID := gid fullPath
        let st1 := createMediaItem st
          ⟨mediaID, parentID, titleOf name, fullPath, size,
            none, none, none, none, none, false, modTime, now, now⟩
        let res := scanEntryList gid now rest dirPath parentID st1
        (res.1, res.2 + 1)
      else
        scanEntryList gid now rest dirPath parentID st

/-- Go `scanDirectory` (unnamed scanner file, lines 158-244): run the
entry loop, then update the folder's item count — only when the count is
positive (`if mediaCount > 0`, line 237). -/
def scanDirectory (gid : String → String) (now : Int)
    (entries : List FSEntry) (dirPath parentID : String) (st : Store) : Store :=
  let res := scanEntryList gid now entries dirPath parentID st
  if 0 < res.2 then updateFolderItemCount res.1 parentID res.2 else res.1

/-- Go `scanLibraryRoot` (unnamed scanner file, lines 83-156): visible
subdirectories of the library root become root folders (`parent_id` =
NULL) and are recursively scanned; supported video files in the root
become media items with the empty-string folder id. No item-count update
happens at the root level. -/
def scanLibraryRoot (gid : String → String) (now : Int) :
    List FSEntry → String → Store → Store
  | [], _, st => st
  | FSEntry.dir name children :: rest, libraryPath, st =>
      if startsWithDot name then
        scanLibraryRoot gid now rest libraryPath st
      else
        let fullPath := joinPath libraryPath name
        let folderID := gid fullPath
        let st1 := createFolder st ⟨folderID, name, fullPath, none, 0, now⟩
        let st2 := scanDirectory gid now children fullPath folderID st1
        scanLibraryRoot gid now rest libraryPath st2
  | FSEntry.file name size modTime :: rest, libraryPath, st =>
      if isSupportedVideo name then
        let fullPath := joinPath libraryPath name
        let mediaID := gid fullPath
        let st1 := createMediaItem st
          ⟨mediaID, "", titleOf name, fullPath, size,
            none, none, none, none, none, false, modTime, now, now⟩
        scanLibraryRoot gid now rest libraryPath st1
      else
        scanLibraryRoot gid now rest libraryPath st

/-- Result of Go `os.Stat` on the root, when it succeeds. -/
structure StatInfo where
  isDir : Bool
deriving DecidableEq, Repr

/-- Go `ScanPath` (unnamed scanner file, lines 37-78): a no-op when a
scan is already running or the configured path is empty; the `os.Stat`
error is returned for a root that does not exist; a root that is not a
directory returns `nil` (`if !info.IsDir() return nil`, lines 61-63);
otherwise cleanup runs best-effort and the root is scanned. The returned
pair is (store after the call, Go error value). -/
def scanPath (scanning : Bool) (libraryPath : String) (stat : Option StatInfo)
    (fs : List String) (rootEntries : List FSEntry)
    (gid : String → String) (now : Int) (st : Store) : Store × Option String :=
  if scanning then (st, none)
  else if libraryPath == "" then (st, none)
  else
    match stat with
    | none => (st, some "stat error")
    | some info =>
        if info.isDir = false then (st, none)
        else
          let st1 := cleanupDeletedFiles fs st
          (scanLibraryRoot gid now rootEntries libraryPath st1, none)

/-- Identity ID derivation, used only to instantiate `gid` in concrete
witnesses (the Go `generateID` is a truncated SHA-256 of the path; the
theorems hold for every derivation function). -/
def idGen : String → String := fun s => s

/-! ## Upsert-by-path of CreateMediaItem (claim C4) -/

theorem filter_path_singleton :
    ∀ (l : List MediaItem) (r : MediaItem), (l.map MediaItem.path).Nodup → r ∈ l →
      l.filter (fun x => x.path == r.path) = [r] := by
  intro l
  induction l with
  | nil => intro r _ hr; cases hr
  | cons a t ih =>
      intro r hnd hr
      rw [List.map_cons, List.nodup_cons] at hnd
      obtain ⟨hna, hndt⟩ := hnd
      rcases List.mem_cons.mp hr with h1 | h1
      · subst h1
        rw [List.filter_cons_of_pos (by simp)]
        have hnil : t.filter (fun x => x.path == r.path) = [] := by
          rw [List.filter_eq_nil_iff]
          intro x hx
          simp only [beq_iff_eq, Bool.not_eq_true]
          intro hpx
          exact absurd (hpx ▸ List.mem_map_of_mem MediaItem.path hx) hna
        rw [hnil]
      · have hne : (a.path == r.path) = false := by
          simp only [beq_eq_false_iff_ne, ne_eq]
          intro hap
          exact hna (hap ▸ List.mem_map_of_mem MediaItem.path h1)
        rw [List.filter_cons_of_neg (by simp [hne])]
        exact ih r hndt h1

/-- CLAIM C4 (confirmed). Re-running `CreateMediaItem` for a path already
in the store (a rescan) keeps the folder table and the media row count
unchanged (no duplicate record — upsert-by-path), and the single row at
that path carries the new title, size and modification time while its
enrichment columns (duration, width, height, video and audio codec) and
identity are exactly those of the pre-existing row. -/
theorem createMediaItem_upsert_by_path (st : Store) (m r : MediaItem)
    (hr : r ∈ st.media) (hpath : r.path = m.path)
    (hnodup : (st.media.map MediaItem.path).Nodup) :
    (createMediaItem st m).folders = st.folders
    ∧ (createMediaItem st m).media.length = st.media.length
    ∧ (createMediaItem st m).media.filter (fun x => x.path == m.path)
        = [{ r with
              title := m.title
              size := m.size
              modifiedAt := m.modifiedAt
              updatedAt := m.updatedAt }] := by
  have hany : st.media.any (fun x => x.path == m.path) = true :=
    List.any_eq_true.mpr ⟨r, hr, by simp [hpath]⟩
  unfold createMediaItem
  rw [if_pos hany]
  refine ⟨rfl, by simp, ?_⟩
  show (st.media.map _).filter _ = _
  rw [List.filter_map]
  have hcomp : ((fun x => x.path == m.path) ∘ fun x : MediaItem =>
      if x.path == m.path then
        { x with
          title := m.title
          size := m.size
          modifiedAt := m.modifiedAt
          updatedAt := m.updatedAt }
      else x) = fun x => x.path == m.path := by
    funext x
    by_cases hx : (x.path == m.path) = true
    · simp only [Function.comp]
      rw [if_pos hx]
    · simp only [Function.comp]
      rw [if_neg hx]
  rw [hcomp, ← hpath, filter_path_singleton st.media r hnodup hr, List.map_cons,
    List.map_nil, hpath]
  rw [if_pos (by simp [hpath])]

def mediaRowC4 : MediaItem :=
  ⟨"id1", "", "Old", "/lib/a.mp4", 100, some 120, some 1920, some 1080,
    some "h264", some "aac", false, 1, 1, 1⟩

def rescanRowC4 : MediaItem :=
  ⟨"id1", "", "New", "/lib/a.mp4", 200, none, none, none, none, none, false, 2, 2, 2⟩

def storeC4 : Store := ⟨[], [mediaRowC4]⟩

/-- Witness for the C4 theorem: a concrete rescan row over a concrete
enriched row. -/
theorem createMediaItem_upsert_by_path_witness :
    (createMediaItem storeC4 rescanRowC4).folders = storeC4.folders
    ∧ (createMediaItem storeC4 rescanRowC4).media.length = storeC4.media.length
    ∧ (createMediaItem storeC4 rescanRowC4).media.filter
        (fun x => x.path == rescanRowC4.path)
        = [{ mediaRowC4 with
              title := rescanRowC4.title
              size := rescanRowC4.size
              modifiedAt := rescanRowC4.modifiedAt
              updatedAt := rescanRowC4.updatedAt }] :=
  createMediaItem_upsert_by_path storeC4 rescanRowC4 mediaRowC4
    (by decide) (by decide) (by decide)

/-! ## CleanupDeletedFiles removes exactly the missing paths (claim C7) -/

theorem cleanup_media_fold_folders (fs : List String) :
    ∀ (pairs : List (String × String)) (st : Store),
      (pairs.foldl
          (fun acc p => if fs.contains p.2 then acc else deleteMediaItem acc p.1) st).folders
        = st.folders := by
  intro pairs
  induction pairs with
  | nil => intro st; rfl
  | cons p ps ih =>
      intro st
      rw [List.foldl_cons]
      by_cases hc : fs.contains p.2
      · rw [if_pos hc]; exact ih st
      · rw [if_neg hc]; exact ih (deleteMediaItem st p.1)

theorem cleanup_folder_fold_media (fs : List String) :
    ∀ (pairs : List (String × String)) (st : Store),
      (pairs.foldl
          (fun acc p => if fs.contains p.2 then acc else deleteFolder acc p.1) st).media
        = st.media := by
  intro pairs
  induction pairs with
  | nil => intro st; rfl
  | cons p ps ih =>
      intro st
      rw [List.foldl_cons]
      by_cases hc : fs.contains p.2
      · rw [if_pos hc]; exact ih st
      · rw [if_neg hc]; exact ih (deleteFolder st p.1)

theorem cleanup_media_fold_media (fs : List String) :
    ∀ (pairs : List (String × String)) (st : Store),
      (pairs.foldl
          (fun acc p => if fs.contains p.2 then acc else deleteMediaItem acc p.1) st).media
        = st.media.filter (fun m => pairs.all (fun p => fs.contains p.2 || m.id != p.1)) := by
  intro pairs
  induction pairs with
  | nil =>
      intro st
      simp
  | cons p ps ih =>
      intro st
      rw [List.foldl_cons]
      by_cases hc : fs.contains p.2
      · rw [if_pos hc, ih st]
        apply List.filter_congr
        intro m _
        rw [List.all_cons, hc, Bool.true_or, Bool.true_and]
      · have hcf : fs.contains p.2 = false := by simpa using hc
        rw [if_neg hc, ih (deleteMediaItem st p.1)]
        show (st.media.filter fun r => r.id != p.1).filter _ = _
        rw [List.filter_filter]
        apply List.filter_congr
        intro m _
        rw [List.all_cons, hcf, Bool.false_or]
        exact Bool.and_comm _ _

theorem cleanup_folder_fold_folders (fs : List String) :
    ∀ (pairs : List (String × String)) (st : Store),
      (pairs.foldl
          (fun acc p => if fs.contains p.2 then acc else deleteFolder acc p.1) st).folders
        = st.folders.filter (fun g => pairs.all (fun p => fs.contains p.2 || g.id != p.1)) := by
  intro pairs
  induction pairs with
  | nil =>
      intro st
      simp
  | cons p ps ih =>
      intro st
      rw [List.foldl_cons]
      by_cases hc : fs.contains p.2
      · rw [if_pos hc, ih st]
        apply List.filter_congr
        intro g _
        rw [List.all_cons, hc, Bool.true_or, Bool.true_and]
      · have hcf : fs.contains p.2 = false := by simpa using hc
        rw [if_neg hc, ih (deleteFolder st p.1)]
        show (st.folders.filter fun g => g.id != p.1).filter _ = _
        rw [List.filter_filter]
        apply List.filter_congr
        intro g _
        rw [List.all_cons, hcf, Bool.false_or]
        exact Bool.and_comm _ _

theorem snapshot_all_iff_media {fs : List String} {l : List MediaItem}
    (hnd : (l.map MediaItem.id).Nodup) {m : MediaItem} (hm : m ∈ l) :
    ((l.map fun r => (r.id, r.path)).all
        (fun p => fs.contains p.2 || m.id != p.1)) = fs.contains m.path := by
  cases hp : fs.contains m.path with
  | true =>
      rw [List.all_eq_true]
      intro p hpmem
      obtain ⟨r, hrmem, hrp⟩ := List.mem_map.mp hpmem
      by_cases hid : m.id = r.id
      · have : m = r := List.inj_on_of_nodup_map hnd hm hrmem hid
        subst this
        rw [← hrp]
        simp only [hp, Bool.true_or]
      · rw [← hrp]
        simp only [Bool.or_eq_true, bne_iff_ne, ne_eq]
        exact Or.inr hid
  | false =>
      rw [List.all_eq_false]
      refine ⟨(m.id, m.path), List.mem_map_of_mem _ hm, ?_⟩
      simp only [Bool.not_eq_true, Bool.or_eq_false_iff]
      exact ⟨hp, by simp⟩

theorem snapshot_all_iff_folder {fs : List String} {l : List Folder}
    (hnd : (l.map Folder.id).Nodup) {g : Folder} (hg : g ∈ l) :
    ((l.map fun r => (r.id, r.path)).all
        (fun p => fs.contains p.2 || g.id != p.1)) = fs.contains g.path := by
  cases hp : fs.contains g.path with
  | true =>
      rw [List.all_eq_true]
      intro p hpmem
      obtain ⟨r, hrmem, hrp⟩ := List.mem_map.mp hpmem
      by_cases hid : g.id = r.id
      · have : g = r := List.inj_on_of_nodup_map hnd hg hrmem hid
        subst this
        rw [← hrp]
        simp only [hp, Bool.true_or]
      · rw [← hrp]
        simp only [Bool.or_eq_true, bne_iff_ne, ne_eq]
        exact Or.inr hid
  | false =>
      rw [List.all_eq_false]
      refine ⟨(g.id, g.path), List.mem_map_of_mem _ hg, ?_⟩
      simp only [Bool.not_eq_true, Bool.or_eq_false_iff]
      exact ⟨hp, by simp⟩

/-- CLAIM C7 (confirmed). `CleanupDeletedFiles` deletes exactly the media
and folder records whose backing path no longer exists (`fs` is the set
of paths that stat successfully); records whose path still exists are
untouched. Row ids are unique (they are primary keys). -/
theorem cleanupDeletedFiles_removes_missing (fs : List String) (st : Store)
    (hm : (st.media.map MediaItem.id).Nodup)
    (hf : (st.folders.map Folder.id).Nodup) :
    (cleanupDeletedFiles fs st).media = st.media.filter (fun m => fs.contains m.path)
    ∧ (cleanupDeletedFiles fs st).folders
        = st.folders.filter (fun g => fs.contains g.path) := by
  unfold cleanupDeletedFiles
  constructor
  · rw [cleanup_folder_fold_media, cleanup_media_fold_media]
    apply List.filter_congr
    intro m hmem
    exact snapshot_all_iff_media hm hmem
  · rw [cleanup_folder_fold_folders, cleanup_media_fold_folders]
    apply List.filter_congr
    intro g hgmem
    exact snapshot_all_iff_folder hf hgmem

def storeC7 : Store :=
  ⟨[⟨"f1", "Kept", "/lib/Kept", none, 1, 0⟩, ⟨"f2", "Gone", "/lib/Gone", none, 0, 0⟩],
    [⟨"m1", "f1", "a", "/lib/Kept/a.mp4", 1, none, none, none, none, none, false, 0, 0, 0⟩,
     ⟨"m2", "f2", "b", "/lib/Gone/b.mp4", 1, none, none, none, none, none, false, 0, 0, 0⟩]⟩

/-- Witness for the C7 theorem: deleting `/lib/Gone` and its file on disk
removes exactly those two records. -/
theorem cleanupDeletedFiles_removes_missing_witness :
    (cleanupDeletedFiles ["/lib/Kept", "/lib/Kept/a.mp4"] storeC7).media
      = storeC7.media.filter (fun m => ["/lib/Kept", "/lib/Kept/a.mp4"].contains m.path)
    ∧ (cleanupDeletedFiles ["/lib/Kept", "/lib/Kept/a.mp4"] storeC7).folders
      = storeC7.folders.filter (fun g => ["/lib/Kept", "/lib/Kept/a.mp4"].contains g.path) :=
  cleanupDeletedFiles_removes_missing ["/lib/Kept", "/lib/Kept/a.mp4"] storeC7
    (by decide) (by decide)

/-! ## Folder item counts (claim C9) -/

theorem createMediaItem_folders (st : Store) (m : MediaItem) :
    (createMediaItem st m).folders = st.folders := by
  unfold createMediaItem
  by_cases h : st.media.any (fun r => r.path == m.path)
  · rw [if_pos h]
  · rw [if_neg h]

theorem directMediaCount_cons_pos {e : FSEntry} (h : isVideoFile e = true)
    (l : List FSEntry) : directMediaCount (e :: l) = directMediaCount l + 1 := by
  simp only [directMediaCount, List.filter_cons_of_pos h, List.length_cons]
  push_cast
  ring

theorem directMediaCount_cons_neg {e : FSEntry} (h : isVideoFile e = false)
    (l : List FSEntry) : directMediaCount (e :: l) = directMediaCount l := by
  unfold directMediaCount
  rw [List.filter_cons_of_neg (show ¬ isVideoFile e = true by simp [h])]

/-- The mediaCount of the entry loop counts exactly the direct
(non-recursive) media children: only the supported-video file branch
increments it; subdirectory recursion maintains its own counter for the
child folder and contributes nothing to this level. -/
theorem scanEntryList_count (gid : String → String) (now : Int) :
    ∀ (entries : List FSEntry) (dirPath parentID : String) (st : Store),
      (scanEntryList gid now entries dirPath parentID st).2 = directMediaCount entries := by
  intro entries
  induction entries with
  | nil =>
      intro dirPath parentID st
      simp [scanEntryList, directMediaCount]
  | cons e rest ih =>
      intro dirPath parentID st
      cases e with
      | dir name children =>
          by_cases hhid : startsWithDot name
          · simp only [scanEntryList]
            rw [if_pos hhid, ih,
              directMediaCount_cons_neg (show isVideoFile (FSEntry.dir name children) = false from rfl)]
          · simp only [scanEntryList]
            rw [if_neg hhid, ih,
              directMediaCount_cons_neg (show isVideoFile (FSEntry.dir name children) = false from rfl)]
      | file name size modTime =>
          by_cases hv : isSupportedVideo name
          · simp only [scanEntryList]
            rw [if_pos hv]
            show (scanEntryList gid now rest dirPath parentID _).2 + 1 = _
            rw [ih, directMediaCount_cons_pos (by simpa [isVideoFile] using hv)]
          · simp only [scanEntryList]
            rw [if_neg hv, ih, directMediaCount_cons_neg (by simpa [isVideoFile] using hv)]

theorem find?_map_update (pid : String) (cnt : Int) :
    ∀ l : List Folder,
      (l.map (fun g => if g.id == pid then { g with itemCount := cnt } else g)).find?
          (fun g => g.id == pid)
        = (l.find? (fun g => g.id == pid)).map (fun g => { g with itemCount := cnt }) := by
  intro l
  induction l with
  | nil => rfl
  | cons a t ih =>
      cases hp : (a.id == pid) with
      | true =>
          rw [List.map_cons, if_pos hp]
          have e1 : List.find? (fun g => g.id == pid)
              ({ a with itemCount := cnt } ::
                t.map fun g => if g.id == pid then { g with itemCount := cnt } else g)
              = some { a with itemCount := cnt } := List.find?_cons_of_pos _ hp
          have e2 : List.find? (fun g => g.id == pid) (a :: t) = some a :=
            List.find?_cons_of_pos _ hp
          rw [e1, e2]
          rfl
      | false =>
          rw [List.map_cons, if_neg (by simp [hp])]
          have e1 : List.find? (fun g => g.id == pid)
              (a :: t.map fun g => if g.id == pid then { g with itemCount := cnt } else g)
              = List.find? (fun g => g.id == pid)
                  (t.map fun g => if g.id == pid then { g with itemCount := cnt } else g) :=
            List.find?_cons_of_neg _ (by simp [hp])
          have e2 : List.find? (fun g => g.id == pid) (a :: t)
              = List.find? (fun g => g.id == pid) t :=
            List.find?_cons_of_neg _ (by simp [hp])
          rw [e1, e2, ih]

/-- All folder IDs the scanner derives while scanning an entry list
rooted at `dirPath`: the ID of every visible subdirectory, recursively
(these are the only IDs whose rows `scanDirectory`'s recursion creates
with `CreateFolder` or retargets with `UpdateFolderItemCount`). -/
def scanFolderIDs (gid : String → String) : List FSEntry → String → List String
  | [], _ => []
  | FSEntry.dir name children :: rest, dirPath =>
      if startsWithDot name then scanFolderIDs gid rest dirPath
      else
        gid (joinPath dirPath name)
          :: (scanFolderIDs gid children (joinPath dirPath name)
            ++ scanFolderIDs gid rest dirPath)
  | FSEntry.file _ _ _ :: rest, dirPath => scanFolderIDs gid rest dirPath

/-- Mapping the folder table with a function that preserves each row's
id — and the item count of rows whose id is `pid` — preserves the
`find?`-by-`pid` item count. -/
theorem find?_itemCount_map_invariant (f : Folder → Folder) (pid : String)
    (hid : ∀ g, (f g).id = g.id)
    (hcnt : ∀ g, g.id = pid → (f g).itemCount = g.itemCount) :
    ∀ l : List Folder,
      ((l.map f).find? (fun g => g.id == pid)).map Folder.itemCount
        = (l.find? (fun g => g.id == pid)).map Folder.itemCount := by
  intro l
  induction l with
  | nil => rfl
  | cons a t ih =>
      rw [List.map_cons]
      cases hp : (a.id == pid) with
      | true =>
          have hfa : ((f a).id == pid) = true := by rw [hid]; exact hp
          have e1 : List.find? (fun g => g.id == pid) (f a :: t.map f) = some (f a) :=
            List.find?_cons_of_pos _ hfa
          have e2 : List.find? (fun g => g.id == pid) (a :: t) = some a :=
            List.find?_cons_of_pos _ hp
          rw [e1, e2]
          simp [hcnt a (by simpa using hp)]
      | false =>
          have hfa : ((f a).id == pid) = false := by rw [hid]; exact hp
          have e1 : List.find? (fun g => g.id == pid) (f a :: t.map f)
              = List.find? (fun g => g.id == pid) (t.map f) :=
            List.find?_cons_of_neg _ (by simp [hfa])
          have e2 : List.find? (fun g => g.id == pid) (a :: t)
              = List.find? (fun g => g.id == pid) t :=
            List.find?_cons_of_neg _ (by simp [hp])
          rw [e1, e2, ih]

theorem find?_append_nonmatch {p : Folder → Bool} {f : Folder} (hf : p f = false) :
    ∀ l : List Folder, (l ++ [f]).find? p = l.find? p := by
  intro l
  induction l with
  | nil =>
      show List.find? p [f] = none
      rw [List.find?_cons_of_neg _ (by simp [hf])]
      rfl
  | cons a t ih =>
      cases hp : p a with
      | true =>
          rw [List.cons_append, List.find?_cons_of_pos _ hp, List.find?_cons_of_pos _ hp]
      | false =>
          rw [List.cons_append, List.find?_cons_of_neg _ (by simp [hp]),
            List.find?_cons_of_neg _ (by simp [hp]), ih]

/-- `CreateFolder` preserves the item count read of any other folder id:
its upsert branch rewrites only `name` (never id or item_count), and its
insert branch appends a row whose id differs from `pid` at the end. -/
theorem folderItemCount_createFolder (st : Store) (f : Folder) (pid : String)
    (h : f.id ≠ pid) :
    folderItemCount (createFolder st f) pid = folderItemCount st pid := by
  unfold createFolder
  by_cases hc : st.folders.any (fun g => g.path == f.path)
  · rw [if_pos hc]
    unfold folderItemCount
    exact find?_itemCount_map_invariant _ pid
      (fun g => by
        by_cases hgp : (g.path == f.path) = true
        · rw [if_pos hgp]
        · rw [if_neg hgp])
      (fun g _ => by
        by_cases hgp : (g.path == f.path) = true
        · rw [if_pos hgp]
        · rw [if_neg hgp])
      st.folders
  · rw [if_neg hc]
    unfold folderItemCount
    rw [find?_append_nonmatch (by simpa using h)]

/-- `UpdateFolderItemCount` on a different folder id preserves the item
count read of `pid`. -/
theorem folderItemCount_update_other (st : Store) (cid pid : String)
    (h : cid ≠ pid) (n : Int) :
    folderItemCount (updateFolderItemCount st cid n) pid = folderItemCount st pid := by
  unfold updateFolderItemCount folderItemCount
  exact find?_itemCount_map_invariant _ pid
    (fun g => by
      by_cases hgc : (g.id == cid) = true
      · rw [if_pos hgc]
      · rw [if_neg hgc])
    (fun g hg => by
      have hne : (g.id == cid) = false := by
        simp only [beq_eq_false_iff_ne, ne_eq, hg]
        exact fun hh => h hh.symm
      rw [if_neg (by simp [hne])])
    st.folders

theorem folderItemCount_createMediaItem (st : Store) (m : MediaItem) (pid : String) :
    folderItemCount (createMediaItem st m) pid = folderItemCount st pid := by
  unfold folderItemCount
  rw [createMediaItem_folders]

/-- The entry loop of `scanDirectory` preserves the item count read of
any folder id that is not among the content-addressed IDs it derives for
the subdirectories it scans: media upserts never touch the folder table,
folder upserts and child count updates target only derived IDs, and new
folder rows are appended behind existing ones. -/
theorem folderItemCount_scanEntryList (gid : String → String) (now : Int) :
    ∀ (entries : List FSEntry) (dirPath parentID pid : String) (st : Store),
      pid ∉ scanFolderIDs gid entries dirPath →
      folderItemCount (scanEntryList gid now entries dirPath parentID st).1 pid
        = folderItemCount st pid
  | [], dirPath, parentID, pid, st, _ => by
      simp [scanEntryList]
  | FSEntry.dir name children :: rest, dirPath, parentID, pid, st, h => by
      by_cases hhid : startsWithDot name
      · simp only [scanEntryList]
        rw [if_pos hhid]
        refine folderItemCount_scanEntryList gid now rest dirPath parentID pid st ?_
        simp only [scanFolderIDs] at h
        rw [if_pos hhid] at h
        exact h
      · simp only [scanFolderIDs] at h
        rw [if_neg hhid] at h
        simp only [List.mem_cons, List.mem_append] at h
        push_neg at h
        obtain ⟨hne, hch, hrest⟩ := h
        simp only [scanEntryList]
        rw [if_neg hhid]
        set fullPath := joinPath dirPath name with hfp
        set fid := gid fullPath with hfid
        set st1 := createFolder st ⟨fid, name, fullPath, some parentID, 0, now⟩ with hst1
        set sub := scanEntryList gid now children fullPath fid st1 with hsub
        rw [folderItemCount_scanEntryList gid now rest dirPath parentID pid
          (if 0 < sub.2 then updateFolderItemCount sub.1 fid sub.2 else sub.1) hrest]
        have h1 : folderItemCount st1 pid = folderItemCount st pid := by
          rw [hst1]
          exact folderItemCount_createFolder st _ pid (Ne.symm hne)
        have h2 : folderItemCount sub.1 pid = folderItemCount st1 pid := by
          rw [hsub]
          exact folderItemCount_scanEntryList gid now children fullPath fid pid st1 hch
        by_cases hpos : 0 < sub.2
        · rw [if_pos hpos, folderItemCount_update_other sub.1 fid pid (Ne.symm hne) sub.2,
            h2, h1]
        · rw [if_neg hpos, h2, h1]
  | FSEntry.file name size modTime :: rest, dirPath, parentID, pid, st, h => by
      have hrest : pid ∉ scanFolderIDs gid rest dirPath := by
        simpa [scanFolderIDs] using h
      by_cases hv : isSupportedVideo name
      · simp only [scanEntryList]
        rw [if_pos hv]
        show folderItemCount (scanEntryList gid now rest dirPath parentID _).1 pid = _
        rw [folderItemCount_scanEntryList gid now rest dirPath parentID pid _ hrest,
          folderItemCount_createMediaItem]
      · simp only [scanEntryList]
        rw [if_neg hv]
        exact folderItemCount_scanEntryList gid now rest dirPath parentID pid st hrest

theorem option_map_const_of_map_eq {o1 o2 : Option Folder}
    (hmap : o1.map Folder.itemCount = o2.map Folder.itemCount) (c : Int) :
    o1.map (fun _ => c) = o2.map (fun _ => c) := by
  cases o1 with
  | none =>
      cases o2 with
      | none => rfl
      | some b => simp at hmap
  | some a =>
      cases o2 with
      | none => simp at hmap
      | some b => rfl

/-- CLAIM C9 (corrected). After `scanDirectory` finishes scanning a
subdirectory — with arbitrarily nested visible and hidden
subdirectories — the folder's item count in the store is set to the
number of direct (non-recursive) media children only when that number
is positive; when it is zero the `if mediaCount > 0` guard skips the
update and the folder's previously stored count persists unchanged.
The hypothesis says the content-addressed IDs derived for the scanned
subdirectories differ from the parent folder's id, as the truncated
SHA-256 of distinct paths does in the code. -/
theorem folder_item_count_amended (gid : String → String) (now : Int)
    (entries : List FSEntry) (dirPath parentID : String) (st : Store)
    (hids : parentID ∉ scanFolderIDs gid entries dirPath) :
    (0 < directMediaCount entries →
      folderItemCount (scanDirectory gid now entries dirPath parentID st) parentID
        = (folderItemCount st parentID).map (fun _ => directMediaCount entries))
    ∧ (directMediaCount entries = 0 →
      folderItemCount (scanDirectory gid now entries dirPath parentID st) parentID
        = folderItemCount st parentID) := by
  have hcount := scanEntryList_count gid now entries dirPath parentID st
  have hpres := folderItemCount_scanEntryList gid now entries dirPath parentID parentID st hids
  constructor
  · intro hpos
    simp only [scanDirectory]
    rw [if_pos (by rw [hcount]; exact hpos)]
    unfold folderItemCount updateFolderItemCount
    rw [find?_map_update, Option.map_map, hcount, Option.map_map]
    show ((scanEntryList gid now entries dirPath parentID st).1.folders.find?
          (fun g => g.id == parentID)).map (fun _ => directMediaCount entries)
      = (st.folders.find? (fun g => g.id == parentID)).map
          (fun _ => directMediaCount entries)
    exact option_map_const_of_map_eq hpres (directMediaCount entries)
  · intro hzero
    simp only [scanDirectory]
    rw [if_neg (by intro hlt; rw [hcount, hzero] at hlt; exact lt_irrefl 0 hlt)]
    exact hpres

def storeC9 : Store := ⟨[⟨"F", "Films", "/lib/Films", some "R", 5, 0⟩], []⟩

/-- CLAIM C9, counterexample: scanning a subdirectory with zero direct
media children leaves the folder's stored item count at its stale
previous value (5), which is not the number of direct media children
found (0). -/
theorem folder_item_count_cex :
    folderItemCount (scanDirectory idGen 0 [] "/lib/Films" "F" storeC9) "F" = some 5
    ∧ directMediaCount ([] : List FSEntry) = 0
    ∧ (5 : Int) ≠ 0 := by
  refine ⟨?_, by decide, by decide⟩
  have h : scanDirectory idGen 0 [] "/lib/Films" "F" storeC9 = storeC9 := by
    simp [scanDirectory, scanEntryList]
  rw [h]
  decide

/-- Witness for the amended C9 theorem: one direct media child updates
the concrete folder's count. -/
theorem folder_item_count_amended_witness :
    folderItemCount
        (scanDirectory idGen 7 [FSEntry.file "a.mp4" 10 0] "/lib/Films" "F" storeC9) "F"
      = (folderItemCount storeC9 "F").map
          (fun _ => directMediaCount [FSEntry.file "a.mp4" 10 0]) :=
  (folder_item_count_amended idGen 7 [FSEntry.file "a.mp4" 10 0] "/lib/Films" "F" storeC9
    (by simp [scanFolderIDs])).1 (by decide)

/-! ## ScanPath root validation (claim C3) -/

/-- CLAIM C3, counterexample: for a root that exists but is not a
directory, `ScanPath` returns `nil` (not an error); the store is left
unchanged. -/
theorem scanPath_non_directory_cex :
    scanPath false "/library" (some ⟨false⟩) [] [] idGen 0
        (⟨[⟨"F", "F", "/x", none, 0, 0⟩], []⟩ : Store)
      = ((⟨[⟨"F", "F", "/x", none, 0, 0⟩], []⟩ : Store), none) := by
  decide

/-- CLAIM C3 (corrected). With no scan in progress and a non-empty
configured path: a root that does not exist makes `ScanPath` return the
stat error and leaves the store unmutated; a root that exists but is not
a directory makes `ScanPath` return `nil` — not an error — and also
leaves the store unmutated. -/
theorem scanPath_bad_root_amended
    (libraryPath : String) (fs : List String) (rootEntries : List FSEntry)
    (gid : String → String) (now : Int) (st : Store) :
    (libraryPath ≠ "" →
      scanPath false libraryPath none fs rootEntries gid now st = (st, some "stat error"))
    ∧ (∀ info : StatInfo, libraryPath ≠ "" → info.isDir = false →
        scanPath false libraryPath (some info) fs rootEntries gid now st = (st, none)) := by
  constructor
  · intro h
    simp [scanPath, h]
  · intro info h hdir
    simp [scanPath, h, hdir]

/-- Witness for the corrected C3 theorem at concrete inputs. -/
theorem scanPath_bad_root_amended_witness :
    scanPath false "/lib" none [] [] idGen 0 (⟨[], []⟩ : Store)
        = ((⟨[], []⟩ : Store), some "stat error")
    ∧ scanPath false "/lib" (some ⟨false⟩) [] [] idGen 0 (⟨[], []⟩ : Store)
        = ((⟨[], []⟩ : Store), none) :=
  ⟨(scanPath_bad_root_amended "/lib" [] [] idGen 0 ⟨[], []⟩).1 (by decide),
    (scanPath_bad_root_amended "/lib" [] [] idGen 0 ⟨[], []⟩).2 ⟨false⟩
      (by decide) (by decide)⟩

end RVCinemaView
